import Mathlib

/-!
Verification of the regenesis cube decoder (`regenesis/cube.py`).

The development shallowly embeds the parsing and assembly pipeline of the
cube decoder: section splitting (`Cube.sections`), section decoding
(`Section.columns`, `Section.rows`, `Section.__iter__`), fact decoding
(`Fact.mapping`) and value construction (`Value`).  External collaborators
that are not part of the repository's source (the `make_key` stable key
generator, the `parse_bool` / `parse_date` primitive parsers, Python's
`csv.reader`, Python's `int()` / `float()` constructors, and the static
`KEYS_TRANSLATE` / `KEYS_IGNORE` / `KEYS_LOCALIZED` tables) are either
modelled from the specification or taken as parameters, as indicated in
their doc comments.
-/

set_option maxHeartbeats 1000000

namespace Regenesis

/-- Typed Python values that can appear in a decoded record: raw text,
booleans from `parse_bool`, integers from `int()`, and real-number fields.
A real number is kept as its raw literal text (constructor `float`), since
the decoder never computes with it. -/
inductive PyVal where
  | str (s : String)
  | bool (b : Bool)
  | int (n : Int)
  | float (s : String)
deriving DecidableEq, Repr

/-- Python truthiness, as used by `if not is_translated`.  In the embedded
code the tested value is always a boolean (the default `True` or the result
of `parse_bool`); the other cases follow Python's rules for completeness. -/
def pyTruthy : PyVal → Bool
  | .str s => !(s == "")
  | .bool b => b
  | .int n => !(n == 0)
  | .float _ => true

/-- A decoded record: a Python dict from field name to typed value,
modelled as an association list with unique keys maintained by `dset`. -/
abbrev Record := List (String × PyVal)

/-- Python dict lookup (`d.get(k)` / `d[k]`): first matching entry. -/
def dget {κ α : Type} [DecidableEq κ] : List (κ × α) → κ → Option α
  | [], _ => none
  | (a, b) :: t, k => if a = k then some b else dget t k

/-- Python dict assignment (`d[k] = v`): replace the first entry with key
`k` in place, or append a new entry. -/
def dset {κ α : Type} [DecidableEq κ] : List (κ × α) → κ → α → List (κ × α)
  | [], k, v => [(k, v)]
  | (a, b) :: t, k, v => if a = k then (k, v) :: t else (a, b) :: dset t k v

/-- Python dict deletion (`del d[k]`) for dicts with unique keys: drop the
entries with key `k`.  Callers model the `KeyError` on a missing key. -/
def ddel {κ α : Type} [DecidableEq κ] : List (κ × α) → κ → List (κ × α)
  | [], _ => []
  | (a, b) :: t, k => if a = k then ddel t k else (a, b) :: ddel t k

/-- Python dict membership (`k in d`). -/
def dhas {κ α : Type} [DecidableEq κ] (d : List (κ × α)) (k : κ) : Bool :=
  (dget d k).isSome

/-- Python `defaultdict(list)` append: `d[k].append(v)`. -/
def dapp {κ α : Type} [DecidableEq κ] : List (κ × List α) → κ → α → List (κ × List α)
  | [], k, v => [(k, [v])]
  | (a, b) :: t, k, v => if a = k then (a, b ++ [v]) :: t else (a, b) :: dapp t k v

/-- Python `base.copy()` followed by `.update(assoc)`: every entry of
`assoc` is written into a copy of `base` in order. -/
def dupdate {κ α : Type} [DecidableEq κ] (base upd : List (κ × α)) : List (κ × α) :=
  upd.foldl (fun d p => dset d p.1 p.2) base

/-- Value of a decimal digit character, `none` for other characters. -/
def digitVal (c : Char) : Option Nat :=
  if '0' ≤ c ∧ c ≤ '9' then some (c.toNat - '0'.toNat) else none

/-- Accumulating decimal reading of a digit string; fails on any
non-digit character. -/
def digitsVal (acc : Nat) : List Char → Option Nat
  | [] => some acc
  | c :: cs =>
    match digitVal c with
    | none => none
    | some d => digitsVal (acc * 10 + d) cs

/-- Modelled from the spec: Python's `int()` constructor, used for the
integer-typed fields and for `GANZ` measure values — "parse as integers
(fails on non-integer text)".  Modelled as an optional minus sign followed
by at least one decimal digit. -/
def parseInt (s : String) : Option Int :=
  match s.data with
  | [] => none
  | '-' :: rest =>
    match rest with
    | [] => none
    | _ => (digitsVal 0 rest).map (fun n => -(n : Int))
  | l => (digitsVal 0 l).map (fun n => (n : Int))

/-- Python `s.split(sep)` for a single-character separator. -/
def splitChar (sep : Char) : List Char → List (List Char)
  | [] => [[]]
  | c :: rest =>
    match splitChar sep rest with
    | [] => [[]]
    | g :: gs => if c = sep then [] :: g :: gs else (c :: g) :: gs

/-- Split a string at the first occurrence of a character: the part before
it, and (when the character occurs) the part after it. -/
def breakAtChar (sep : Char) : List Char → List Char × Option (List Char)
  | [] => ([], none)
  | c :: cs =>
    if c = sep then ([], some cs)
    else
      match breakAtChar sep cs with
      | (x, y) => (c :: x, y)

/-- Python `row.split(';', 2)`: at most two splits, so one, two or three
parts. -/
def splitSemi2 (s : String) : List String :=
  match breakAtChar ';' s.data with
  | (a, none) => [String.mk a]
  | (a, some r) =>
    match breakAtChar ';' r with
    | (b, none) => [String.mk a, String.mk b]
    | (b, some r2) => [String.mk a, String.mk b, String.mk r2]

/-- Whether the first list starts the second (character-sequence match). -/
def leadMatch : List Char → List Char → Bool
  | [], _ => true
  | _ :: _, [] => false
  | p :: ps, c :: cs => p = c && leadMatch ps cs

/-- Whether `pat` occurs as a contiguous subsequence. -/
def containsSeq (pat : List Char) : List Char → Bool
  | [] => leadMatch pat []
  | c :: cs => leadMatch pat (c :: cs) || containsSeq pat cs

/-- Python `plain.replace(';\n"', ';"')` at the character level: scan left
to right; each occurrence of delimiter, newline, quote is rewritten to
delimiter, quote, and scanning continues after the replacement
(non-overlapping, as `str.replace` does). -/
def normSeq : List Char → List Char
  | [] => []
  | [c] => [c]
  | [c, d] => [c, d]
  | c :: d :: e :: rest =>
    if c = ';' ∧ d = '\n' ∧ e = '"' then ';' :: '"' :: normSeq rest
    else c :: normSeq (d :: e :: rest)

/-- Python `s.split(sep)` at the `String` level. -/
def pySplit (sep : Char) (s : String) : List String :=
  (splitChar sep s.data).map String.mk

/-- Line-rejoining normalization of `Section.rows`
(`plain.replace(';\n"', ';"')`). -/
def normalizeBlob (s : String) : String :=
  String.mk (normSeq s.data)

/-- Modelled from the spec: the external `parse_bool` primitive parses "a
small fixed vocabulary of truthy/falsy tokens (fails on any other token)".
The concrete vocabulary chosen here is `ja` / `nein`. -/
def parse_bool (s : String) : Option Bool :=
  if s = "ja" then some true else if s = "nein" then some false else none

/-- Modelled from the spec: the external `parse_date` primitive parses one
raw date-range token into its start and end ("fails on malformed date
text").  Modelled as failing on the empty token and otherwise returning
distinct start and end markers derived from the token. -/
def parse_date (s : String) : Option (String × String) :=
  if s = "" then none else some ("from_" ++ s, "until_" ++ s)

/-- Whether every character is a decimal digit. -/
def allDigits : List Char → Bool
  | [] => true
  | c :: cs => (digitVal c).isSome && allDigits cs

/-- Modelled from the spec: Python's `float()` constructor, used for
non-`GANZ` measure values — "parsed as a real number", failing otherwise.
Modelled as an optional minus sign and a decimal literal with at most one
point and at least one digit. -/
def isFloatLit (s : String) : Bool :=
  let core := fun (l : List Char) =>
    match splitChar '.' l with
    | [a] => !(a == []) && allDigits a
    | [a, b] => (!(a == []) || !(b == [])) && allDigits a && allDigits b
    | _ => false
  match s.data with
  | '-' :: rest => core rest
  | l => core l

/-- Serialization of one `make_key` argument.  Tagged per type so that
distinct arguments serialize distinctly. -/
def partStr : Option PyVal → String
  | none => "None"
  | some (.str s) => "s:" ++ s
  | some (.bool b) => if b then "b:true" else "b:false"
  | some (.int n) => "i:" ++ toString n
  | some (.float s) => "f:" ++ s

/-- Modelled from the spec: the external `make_key` Identity Key Generator
"produces a stable string identifier from an ordered sequence of string
parts" — deterministic and collision-resistant.  Modelled as the ordered
concatenation of the tagged parts. -/
def makeKey (parts : List (Option PyVal)) : String :=
  String.intercalate "|" (parts.map partStr)

/-- Parse state of the delimiter-separated parser: at the start of a
field, inside an unquoted field, inside a quoted field, or just after a
quote character inside a quoted field. -/
inductive CsvMode where
  | fieldStart
  | unquoted
  | inQuoted
  | quoteInQuoted
deriving DecidableEq

/-- Modelled from the spec: Python's `csv.reader` with delimiter `;` and
standard quoting rules ("a field may be quoted to contain the delimiter or
embedded newlines"; a doubled quote inside a quoted field is a literal
quote).  `field` and `row` accumulate the current field and row, `rows`
the finished rows, and `sawAny` records whether the current row has
consumed any character (an empty final line yields no row). -/
def csvRun : List Char → CsvMode → List Char → List (List Char) →
    List (List (List Char)) → Bool → List (List (List Char))
  | [], _, field, row, rows, sawAny =>
    if sawAny then rows ++ [row ++ [field]] else rows
  | c :: cs, .fieldStart, field, row, rows, sawAny =>
    if c = '"' then csvRun cs .inQuoted field row rows true
    else if c = ';' then csvRun cs .fieldStart [] (row ++ [field]) rows true
    else if c = '\n' then
      if sawAny then csvRun cs .fieldStart [] [] (rows ++ [row ++ [field]]) false
      else csvRun cs .fieldStart [] [] (rows ++ [[]]) false
    else csvRun cs .unquoted (field ++ [c]) row rows true
  | c :: cs, .unquoted, field, row, rows, _ =>
    if c = ';' then csvRun cs .fieldStart [] (row ++ [field]) rows true
    else if c = '\n' then csvRun cs .fieldStart [] [] (rows ++ [row ++ [field]]) false
    else csvRun cs .unquoted (field ++ [c]) row rows true
  | c :: cs, .inQuoted, field, row, rows, sawAny =>
    if c = '"' then csvRun cs .quoteInQuoted field row rows sawAny
    else csvRun cs .inQuoted (field ++ [c]) row rows sawAny
  | c :: cs, .quoteInQuoted, field, row, rows, sawAny =>
    if c = '"' then csvRun cs .inQuoted (field ++ ['"']) row rows sawAny
    else if c = ';' then csvRun cs .fieldStart [] (row ++ [field]) rows true
    else if c = '\n' then csvRun cs .fieldStart [] [] (rows ++ [row ++ [field]]) false
    else csvRun cs .unquoted (field ++ [c]) row rows sawAny

/-- Delimiter-separated parsing of a blob into rows of string fields. -/
def csvParse (s : String) : List (List String) :=
  (csvRun s.data .fieldStart [] [] [] false).map (fun r => r.map String.mk)

/-- Column-name normalization of `Section.columns`: lowercase, hyphens to
underscores, then the `KEYS_TRANSLATE` lookup with pass-through default.
`KEYS_TRANSLATE` is an external static table and is modelled as the
parameter `tr` (callers of the theorems may instantiate it freely). -/
def normalizeCol (tr : String → String) (c : String) : String :=
  tr (String.mk (c.data.map (fun ch =>
    if ch.toLower = '-' then '_' else ch.toLower)))

/-- Embeds `Section.columns`: split the header line on `;`, drop the first column
(the row-type discriminator), normalize and translate the rest. -/
def sectionColumns (tr : String → String) (headerLine : String) : List String :=
  ((pySplit ';' headerLine).drop 1).map (normalizeCol tr)

/-- Embeds `Section.rows`: join the data lines with newlines, apply the
line-rejoining normalization, parse as delimiter-separated rows, and drop
the first field (the row-type discriminator) of every row. -/
def sectionRows (dataLines : List String) : List (List String) :=
  (csvParse (normalizeBlob (String.intercalate "\n" dataLines))).map (fun r => r.drop 1)

/-- Embeds `FIELD_TYPES` from `cube.py`: the field coercion registry.  Boolean
fields go through `parse_bool`; `valid_from` / `valid_until` take the
start resp. end of the same `parse_date` parse; the four order/precision
fields go through `int()`. -/
def fieldTypes : String → Option (String → Option PyVal)
  | "eu_vbd" => some (fun s => (parse_bool s).map PyVal.bool)
  | "genesis_vbd" => some (fun s => (parse_bool s).map PyVal.bool)
  | "regiostat" => some (fun s => (parse_bool s).map PyVal.bool)
  | "secret_values" => some (fun s => (parse_bool s).map PyVal.bool)
  | "spr_tmp" => some (fun s => (parse_bool s).map PyVal.bool)
  | "trans_flag_2" => some (fun s => (parse_bool s).map PyVal.bool)
  | "meta_variable" => some (fun s => (parse_bool s).map PyVal.bool)
  | "summable" => some (fun s => (parse_bool s).map PyVal.bool)
  | "atemporal" => some (fun s => (parse_bool s).map PyVal.bool)
  | "valid_from" => some (fun s => (parse_date s).map (fun p => PyVal.str p.1))
  | "valid_until" => some (fun s => (parse_date s).map (fun p => PyVal.str p.2))
  | "pos_nr" => some (fun s => (parseInt s).map PyVal.int)
  | "axis_order" => some (fun s => (parseInt s).map PyVal.int)
  | "label_order" => some (fun s => (parseInt s).map PyVal.int)
  | "float_precision" => some (fun s => (parseInt s).map PyVal.int)
  | _ => none

/-- Coercion of one field: apply the registered coercion when the column
has one (failure propagates), otherwise pass the raw text through. -/
def coerceField (key value : String) : Option PyVal :=
  match fieldTypes key with
  | some f => f value
  | none => some (PyVal.str value)

/-- The loop body of `Section.__iter__` over the (column, value) pairs of
one row: skip empty values, coerce typed fields (failure aborts), track
the `trans_flag_2` value, skip ignored columns after coercion, store the
rest.  `KEYS_IGNORE` is an external static table and is modelled as the
parameter `ignore`. -/
def buildStep (ignore : List String) :
    List (String × String) → Record → PyVal → Option (Record × PyVal)
  | [], obj, isTr => some (obj, isTr)
  | (key, value) :: rest, obj, isTr =>
    if value = "" then buildStep ignore rest obj isTr
    else
      match coerceField key value with
      | none => none
      | some v =>
        let isTr' := if key = "trans_flag_2" then v else isTr
        if key ∈ ignore then buildStep ignore rest obj isTr'
        else buildStep ignore rest (dset obj key v) isTr'

/-- One record of `Section.__iter__`: run the loop body over the pairs
starting from the empty dict and `is_translated = True`, then, when the
final flag is falsy, delete every `KEYS_LOCALIZED` field.  `KEYS_LOCALIZED`
is an external static table and is modelled as the parameter
`localized`. -/
def buildRecord (ignore localized : List String)
    (pairs : List (String × String)) : Option Record :=
  match buildStep ignore pairs [] (PyVal.bool true) with
  | none => none
  | some (obj, isTr) =>
    some (if pyTruthy isTr then obj else localized.foldl (fun o k => ddel o k) obj)

/-- The pairs consumed by `Section.__iter__` for one decoded row:
`zip(self.columns[1:], data)`, where `data` is a row of `Section.rows`
(already stripped of its discriminator field). -/
def recordPairs (tr : String → String) (headerLine : String)
    (row : List String) : List (String × String) :=
  ((sectionColumns tr headerLine).drop 1).zip row

/-- The record produced by `Section.__iter__` for one decoded row. -/
def recordOfRow (tr : String → String) (ignore localized : List String)
    (headerLine : String) (row : List String) : Option Record :=
  buildRecord ignore localized (recordPairs tr headerLine row)

/-- The full record sequence of a section (`list(Section(lines))`): the
first line is the header, the rest are data lines; any coercion failure
aborts the whole iteration. -/
def sectionRecords (tr : String → String) (ignore localized : List String)
    (lines : List String) : Option (List Record) :=
  match lines with
  | [] => none
  | h :: rest => (sectionRows rest).mapM (recordOfRow tr ignore localized h)

/-- The failures `Fact.mapping` can raise: an out-of-range row access
(`IndexError`, the spec's `SchemaMismatch`), a failed `int()` / `float()`
/ `parse_date` conversion (the spec's `CoercionFailure`), and a missing
`name` / `data_type` key in a schema record (`KeyError`). -/
inductive DecodeErr where
  | schemaMismatch
  | coercionFailure
  | keyError
deriving DecidableEq, Repr

/-- The values stored by `Fact.mapping`: a plain raw string (axes), a time
entry (raw text plus parsed start and end), or a measure dict. -/
inductive MapVal where
  | plain (v : PyVal)
  | timeEntry (raw tFrom tUntil : String)
  | mdict (d : Record)
deriving DecidableEq, Repr

/-- The fact mapping: Python dict keyed by the schema records' `name`
values, with `fact_id` added at the end. -/
abbrev FactMap := List (PyVal × MapVal)

/-- The axes loop of `Fact.mapping`: one row field per axis, stored
verbatim under the axis's `name` and appended to the identity parts.  The
row access happens before the `name` lookup, as in the Python assignment
(right-hand side first). -/
def axesStep (row : List String) :
    List Record → FactMap → List String → Nat →
    Except DecodeErr (FactMap × List String × Nat)
  | [], m, parts, off => .ok (m, parts, off)
  | axis :: rest, m, parts, off =>
    match row.get? off with
    | none => .error .schemaMismatch
    | some v =>
      match dget axis "name" with
      | none => .error .keyError
      | some nm =>
        axesStep row rest (dset m nm (.plain (.str v))) (parts ++ [v]) (off + 1)

/-- The times loop of `Fact.mapping`: one row field per time dimension,
parsed with `parse_date`, stored as a structured entry under the time's
`name` and appended raw to the identity parts. -/
def timesStep (row : List String) :
    List Record → FactMap → List String → Nat →
    Except DecodeErr (FactMap × List String × Nat)
  | [], m, parts, off => .ok (m, parts, off)
  | time :: rest, m, parts, off =>
    match row.get? off with
    | none => .error .schemaMismatch
    | some v =>
      match parse_date v with
      | none => .error .coercionFailure
      | some (f, u) =>
        match dget time "name" with
        | none => .error .keyError
        | some nm =>
          timesStep row rest (dset m nm (.timeEntry v f u)) (parts ++ [v]) (off + 1)

/-- The measures loop of `Fact.mapping`: per measure, copy the measure
record without its `name`, parse the value field as `int()` when the
declared data type is `GANZ` and as `float()` otherwise, read the three
following fields as quality, locked and error, and store the dict under
the measure's `name`; four row fields are consumed. -/
def measuresStep (row : List String) :
    List Record → FactMap → Nat → Except DecodeErr (FactMap × Nat)
  | [], m, off => .ok (m, off)
  | measure :: rest, m, off =>
    match dget measure "name" with
    | none => .error .keyError
    | some nm =>
      match dget measure "data_type" with
      | none => .error .keyError
      | some dt =>
        match row.get? off with
        | none => .error .schemaMismatch
        | some v0 =>
          match (if dt = PyVal.str "GANZ" then (parseInt v0).map PyVal.int
                 else if isFloatLit v0 then some (PyVal.float v0) else none) with
          | none => .error .coercionFailure
          | some value =>
            match row.get? (off + 1) with
            | none => .error .schemaMismatch
            | some q =>
              match row.get? (off + 2) with
              | none => .error .schemaMismatch
              | some l =>
                match row.get? (off + 3) with
                | none => .error .schemaMismatch
                | some e =>
                  measuresStep row rest
                    (dset m nm (.mdict
                      (dset (dset (dset (dset (ddel measure "name")
                        "value" value) "quality" (.str q)) "locked" (.str l))
                        "error" (.str e))))
                    (off + 4)

/-- Embeds `Fact.mapping`: walk the axes, then the times, then the measures,
consuming the row left to right from offset 0, and finally store
`fact_id`, the `make_key` of the collected identity parts. -/
def factMapping (axes times measures : List Record) (row : List String) :
    Except DecodeErr FactMap :=
  match axesStep row axes [] [] 0 with
  | .error e => .error e
  | .ok (m1, p1, o1) =>
    match timesStep row times m1 p1 o1 with
    | .error e => .error e
    | .ok (m2, p2, o2) =>
      match measuresStep row measures m2 o2 with
      | .error e => .error e
      | .ok (m3, _) =>
        .ok (dset m3 (PyVal.str "fact_id")
          (.plain (.str (makeKey (p2.map (fun s => some (PyVal.str s)))))))

/-- The number of row fields the fact schema demands:
`len(axes) + len(times) + 4*len(measures)`. -/
def factRequired (axes times measures : List Record) : Nat :=
  axes.length + times.length + 4 * measures.length

/-- Well-formed schema names: the `name` values of all axis, time and
measure records are pairwise distinct and none equals `"fact_id"`. -/
def wfNames (axes times measures : List Record) : Prop :=
  (((axes ++ times ++ measures).map (fun r => dget r "name")).Nodup) ∧
  ∀ r ∈ axes ++ times ++ measures, dget r "name" ≠ some (PyVal.str "fact_id")

/-- Embeds `Value.__init__`: merge the association record into a copy of the base
catalog record, then delete `name` (a `KeyError` — modelled as `none` —
when the merged record has no `name`). -/
def valueData (base assoc : Record) : Option Record :=
  let d := dupdate base assoc
  if dhas d "name" then some (ddel d "name") else none

/-- Embeds `Value.id`: `make_key` of the `name`, `key`, `valid_from` and
`valid_until` lookups on the value's internal data. -/
def valueId (data : Record) : String :=
  makeKey [dget data "name", dget data "key",
           dget data "valid_from", dget data "valid_until"]

/-- Embeds `Value.to_dict`: a copy of the internal data with `value_id` added. -/
def valueToDict (data : Record) : Record :=
  dset data "value_id" (PyVal.str (valueId data))

/-- The loop of `Cube.sections`: a line starting with `K;` updates the
current section name to the second part of `row.split(';', 2)` (a failing
three-way unpack aborts); every line, marker lines included, is appended
under the current name.  Lines before the first marker accumulate under
the `None` key. -/
def sectionsFold (cur : Option String) (acc : List (Option String × List String)) :
    List String → Except Unit (List (Option String × List String))
  | [] => .ok acc
  | row :: rest =>
    if leadMatch ['K', ';'] row.data then
      match splitSemi2 row with
      | [_, name, _] => sectionsFold (some name) (dapp acc (some name) row) rest
      | _ => .error ()
    else sectionsFold cur (dapp acc cur row) rest

/-- The section name a line is assigned to, given the name current before
it: a marker line switches to (and is assigned) its own name, any other
line keeps the current name. -/
def specCur (cur : Option String) (row : String) : Option String :=
  if leadMatch ['K', ';'] row.data then
    match splitSemi2 row with
    | [_, name, _] => some name
    | _ => cur
  else cur

/-- Each line of the body paired with the section name it is assigned
to. -/
def assignedFrom (cur : Option String) : List String → List (Option String × String)
  | [] => []
  | row :: rest => (specCur cur row, row) :: assignedFrom (specCur cur row) rest

/-- The lines assigned to section name `k`, in original encounter
order. -/
def linesFor (cur : Option String) (lines : List String) (k : Option String) :
    List String :=
  ((assignedFrom cur lines).filter (fun p => decide (p.1 = k))).map (fun p => p.2)

/-! ### Dictionary lemmas -/

theorem dget_dset {κ α : Type} [DecidableEq κ] (d : List (κ × α)) (k : κ) (v : α) (j : κ) :
    dget (dset d k v) j = if k = j then some v else dget d j := by
  induction d with
  | nil => by_cases h : k = j <;> simp [dset, dget, h]
  | cons p t ih =>
    obtain ⟨a, b⟩ := p
    by_cases hak : a = k
    · subst hak
      by_cases haj : a = j <;> simp [dset, dget, haj]
    · by_cases haj : a = j
      · subst haj
        have : ¬ k = a := fun hh => hak hh.symm
        simp [dset, dget, hak, this]
      · simp [dset, dget, hak, haj, ih]

theorem dget_ddel {κ α : Type} [DecidableEq κ] (d : List (κ × α)) (k : κ) (j : κ) :
    dget (ddel d k) j = if k = j then none else dget d j := by
  induction d with
  | nil => by_cases h : k = j <;> simp [ddel, dget, h]
  | cons p t ih =>
    obtain ⟨a, b⟩ := p
    by_cases hak : a = k
    · subst hak
      by_cases haj : a = j
      · subst haj
        simp [ddel, dget, ih]
      · simp [ddel, dget, haj, ih]
    · by_cases haj : a = j
      · subst haj
        have : ¬ k = a := fun hh => hak hh.symm
        simp [ddel, dget, hak, this]
      · simp [ddel, dget, hak, haj, ih]

theorem dget_dapp {κ α : Type} [DecidableEq κ] (d : List (κ × List α)) (k : κ) (v : α) (j : κ) :
    dget (dapp d k v) j =
      if k = j then some ((dget d k).getD [] ++ [v]) else dget d j := by
  induction d with
  | nil => by_cases h : k = j <;> simp [dapp, dget, h]
  | cons p t ih =>
    obtain ⟨a, b⟩ := p
    by_cases hak : a = k
    · subst hak
      by_cases haj : a = j <;> simp [dapp, dget, haj]
    · by_cases haj : a = j
      · subst haj
        have : ¬ k = a := fun hh => hak hh.symm
        simp [dapp, dget, hak, this]
      · simp [dapp, dget, hak, haj, ih]

theorem dget_eq_none_iff {κ α : Type} [DecidableEq κ] (d : List (κ × α)) (k : κ) :
    dget d k = none ↔ ∀ p ∈ d, p.1 ≠ k := by
  induction d with
  | nil => simp [dget]
  | cons p t ih =>
    obtain ⟨a, b⟩ := p
    by_cases hak : a = k <;> simp [dget, hak, ih]

theorem dget_dupdate_of_none {κ α : Type} [DecidableEq κ] (upd : List (κ × α)) :
    ∀ (base : List (κ × α)) (k : κ), dget upd k = none →
      dget (dupdate base upd) k = dget base k := by
  induction upd with
  | nil => intro base k _; rfl
  | cons p t ih =>
    intro base k h
    obtain ⟨a, b⟩ := p
    have hak : ¬ a = k := by
      intro hh
      simp [dget, hh] at h
    have ht : dget t k = none := by
      simpa [dget, hak] using h
    have : dupdate base ((a, b) :: t) = dupdate (dset base a b) t := rfl
    rw [this, ih _ k ht, dget_dset]
    simp [hak]

theorem dget_foldl_ddel_of_none {α : Type} (l : List String) :
    ∀ (o : List (String × α)) (k : String), dget o k = none →
      dget (l.foldl (fun o k => ddel o k) o) k = none := by
  induction l with
  | nil => intro o k h; simpa using h
  | cons x t ih =>
    intro o k h
    have : dget (ddel o x) k = none := by
      rw [dget_ddel]
      split <;> simp [h]
    simpa using ih _ k this

theorem dget_foldl_ddel_mem {α : Type} (l : List String) :
    ∀ (o : List (String × α)) (k : String), k ∈ l →
      dget (l.foldl (fun o k => ddel o k) o) k = none := by
  induction l with
  | nil => intro o k h; simp at h
  | cons x t ih =>
    intro o k h
    rcases List.mem_cons.mp h with h | h
    · subst h
      have hstep : dget (ddel o k) k = none := by
        rw [dget_ddel]; simp
      simpa using dget_foldl_ddel_of_none t (ddel o k) k hstep
    · exact ih _ k h

theorem dget_foldl_ddel_isSome {α : Type} (l : List String) :
    ∀ (o : List (String × α)) (k : String),
      (dget (l.foldl (fun o k => ddel o k) o) k).isSome = true →
      (dget o k).isSome = true := by
  induction l with
  | nil => intro o k h; simpa using h
  | cons x t ih =>
    intro o k h
    have h2 := ih _ k (by simpa using h)
    rw [dget_ddel] at h2
    by_cases hx : x = k
    · simp [hx] at h2
    · simpa [hx] using h2

/-! ### List helpers -/

theorem get?_lt {α : Type} {l : List α} {n : Nat} {v : α}
    (h : l.get? n = some v) : n < l.length := by
  induction l generalizing n with
  | nil => simp [List.get?] at h
  | cons x t ih =>
    cases n with
    | zero => simp
    | succ m =>
      simp only [List.get?] at h
      exact Nat.succ_lt_succ (ih h)

theorem get?_of_lt {α : Type} {l : List α} {n : Nat}
    (h : n < l.length) : ∃ v, l.get? n = some v := by
  induction l generalizing n with
  | nil => simp at h
  | cons x t ih =>
    cases n with
    | zero => exact ⟨x, rfl⟩
    | succ m => exact ih (Nat.lt_of_succ_lt_succ h)

theorem drop_cons_of_get? {α : Type} {l : List α} {n : Nat} {v : α}
    (h : l.get? n = some v) : l.drop n = v :: l.drop (n + 1) := by
  induction l generalizing n with
  | nil => simp [List.get?] at h
  | cons x t ih =>
    cases n with
    | zero =>
      simp only [List.get?] at h
      cases h
      rfl
    | succ m =>
      simp only [List.get?] at h
      simpa using ih h

theorem zip_get? {α β : Type} :
    ∀ (l : List α) (r : List β) (i : Nat),
      (l.zip r).get? i =
        (l.get? i).bind (fun a => (r.get? i).map (fun b => (a, b))) := by
  intro l
  induction l with
  | nil => intro r i; simp
  | cons x t ih =>
    intro r i
    cases r with
    | nil => simp
    | cons y s =>
      cases i with
      | zero => simp
      | succ m => simpa using ih s m

theorem drop_get? {α : Type} :
    ∀ (l : List α) (n i : Nat), (l.drop n).get? i = l.get? (n + i) := by
  intro l
  induction l with
  | nil => intro n i; simp
  | cons x t ih =>
    intro n i
    cases n with
    | zero => simp
    | succ m =>
      have : m + 1 + i = m + i + 1 := by omega
      simp only [List.drop, this, List.get?]
      exact ih m i

theorem mem_of_mem_drop' {α : Type} :
    ∀ {l : List α} {n : Nat} {a : α}, a ∈ l.drop n → a ∈ l := by
  intro l
  induction l with
  | nil => intro n a h; simpa using h
  | cons x t ih =>
    intro n a h
    cases n with
    | zero => simpa using h
    | succ m => exact List.mem_cons_of_mem x (ih h)

theorem nodup_map_later {α β : Type} (f : α → β) :
    ∀ (l : List α), (l.map f).Nodup →
      ∀ (i : Nat) (hi : i < l.length), ∀ a ∈ l.drop (i + 1),
        f a ≠ f (l.get ⟨i, hi⟩) := by
  intro l
  induction l with
  | nil => intro _ i hi; simp at hi
  | cons x t ih =>
    intro hnd i hi a ha
    have hx : f x ∉ t.map f := (List.nodup_cons.mp (by simpa using hnd)).1
    have ht : (t.map f).Nodup := (List.nodup_cons.mp (by simpa using hnd)).2
    cases i with
    | zero =>
      intro heq
      simp only [List.get] at heq
      have : a ∈ t := by simpa using ha
      exact hx (heq ▸ List.mem_map.mpr ⟨a, this, rfl⟩)
    | succ j =>
      have hj : j < t.length := Nat.lt_of_succ_lt_succ hi
      have ha' : a ∈ t.drop (j + 1) := by simpa using ha
      simpa using ih ht j hj a ha'

/-! ### Record-construction lemmas -/

theorem buildStep_append (ignore : List String) (xs ys : List (String × String)) :
    ∀ (obj : Record) (isTr : PyVal),
      buildStep ignore (xs ++ ys) obj isTr =
        match buildStep ignore xs obj isTr with
        | none => none
        | some (o, t) => buildStep ignore ys o t := by
  induction xs with
  | nil => intro obj isTr; simp [buildStep]
  | cons p xs ih =>
    intro obj isTr
    obtain ⟨k, v⟩ := p
    by_cases hv : v = ""
    · simpa [buildStep, hv] using ih obj isTr
    · cases hc : coerceField k v with
      | none => simp [buildStep, hv, hc]
      | some w =>
        by_cases hk : k ∈ ignore <;>
          simp [buildStep, hv, hc, hk, ih]

theorem buildStep_fail (ignore : List String) (key value : String)
    (hne : value ≠ "") (hc : coerceField key value = none) :
    ∀ (pairs : List (String × String)) (obj : Record) (isTr : PyVal),
      (key, value) ∈ pairs → buildStep ignore pairs obj isTr = none := by
  intro pairs
  induction pairs with
  | nil => intro obj isTr h; simp at h
  | cons p t ih =>
    intro obj isTr h
    obtain ⟨k, v⟩ := p
    rcases List.mem_cons.mp h with heq | hm
    · cases heq
      simp [buildStep, hne, hc]
    · by_cases hv : v = ""
      · simpa [buildStep, hv] using ih obj isTr hm
      · cases hcv : coerceField k v with
        | none => simp [buildStep, hv, hcv]
        | some w =>
          by_cases hk : k ∈ ignore
          · simpa [buildStep, hv, hcv, hk] using ih _ _ hm
          · simpa [buildStep, hv, hcv, hk] using ih _ _ hm

theorem buildStep_flag_const (ignore : List String) :
    ∀ (pairs : List (String × String)) (obj : Record) (isTr : PyVal)
      (o : Record) (t : PyVal),
      (∀ p ∈ pairs, p.1 ≠ "trans_flag_2") →
      buildStep ignore pairs obj isTr = some (o, t) → t = isTr := by
  intro pairs
  induction pairs with
  | nil =>
    intro obj isTr o t _ h
    simp [buildStep] at h
    exact h.2.symm
  | cons p ps ih =>
    intro obj isTr o t hno h
    obtain ⟨k, v⟩ := p
    have hk2 : k ≠ "trans_flag_2" := hno (k, v) (List.mem_cons_self _ _)
    have hrest : ∀ p ∈ ps, p.1 ≠ "trans_flag_2" :=
      fun p hp => hno p (List.mem_cons_of_mem _ hp)
    by_cases hv : v = ""
    · exact ih obj isTr o t hrest (by simpa [buildStep, hv] using h)
    · cases hcv : coerceField k v with
      | none => simp [buildStep, hv, hcv] at h
      | some w =>
        by_cases hig : k ∈ ignore
        · exact ih obj isTr o t hrest
            (by simpa [buildStep, hv, hcv, hig, hk2] using h)
        · exact ih (dset obj k w) isTr o t hrest
            (by simpa [buildStep, hv, hcv, hig, hk2] using h)

theorem buildStep_keys (ignore : List String) :
    ∀ (pairs : List (String × String)) (obj : Record) (isTr : PyVal)
      (o : Record) (t : PyVal),
      buildStep ignore pairs obj isTr = some (o, t) →
      ∀ k, (dget o k).isSome = true →
        (dget obj k).isSome = true ∨ ∃ v, (k, v) ∈ pairs ∧ v ≠ "" := by
  intro pairs
  induction pairs with
  | nil =>
    intro obj isTr o t h k hk
    simp [buildStep] at h
    exact Or.inl (h.1 ▸ hk)
  | cons p ps ih =>
    intro obj isTr o t h k hk
    obtain ⟨kk, vv⟩ := p
    by_cases hv : vv = ""
    · rcases ih obj _ o t (by simpa [buildStep, hv] using h) k hk with hl | ⟨w, hw, hwne⟩
      · exact Or.inl hl
      · exact Or.inr ⟨w, List.mem_cons_of_mem _ hw, hwne⟩
    · cases hcv : coerceField kk vv with
      | none => simp [buildStep, hv, hcv] at h
      | some w =>
        by_cases hig : kk ∈ ignore
        · rcases ih obj _ o t (by simpa [buildStep, hv, hcv, hig] using h) k hk with
            hl | ⟨u, hu, hune⟩
          · exact Or.inl hl
          · exact Or.inr ⟨u, List.mem_cons_of_mem _ hu, hune⟩
        · rcases ih (dset obj kk w) _ o t
            (by simpa [buildStep, hv, hcv, hig] using h) k hk with hl | ⟨u, hu, hune⟩
          · rw [dget_dset] at hl
            by_cases hkk : kk = k
            · exact Or.inr ⟨vv, by simp [hkk], hv⟩
            · exact Or.inl (by simpa [hkk] using hl)
          · exact Or.inr ⟨u, List.mem_cons_of_mem _ hu, hune⟩

/-! ### Normalization lemmas -/

theorem containsSeq_cons_false {pat : List Char} {c : Char} {cs : List Char}
    (h : containsSeq pat (c :: cs) = false) : containsSeq pat cs = false := by
  simp only [containsSeq, Bool.or_eq_false_iff] at h
  exact h.2

theorem normSeq_cons3 (c d e : Char) (rest : List Char) :
    normSeq (c :: d :: e :: rest) =
      if c = ';' ∧ d = '\n' ∧ e = '"' then ';' :: '"' :: normSeq rest
      else c :: normSeq (d :: e :: rest) := rfl

theorem normSeq_id_of_free :
    ∀ (n : Nat) (l : List Char), l.length ≤ n →
      containsSeq [';', '\n', '"'] l = false → normSeq l = l := by
  intro n
  induction n with
  | zero =>
    intro l hl _
    have : l = [] := List.length_eq_zero.mp (Nat.le_zero.mp hl)
    subst this
    rfl
  | succ n ih =>
    intro l hl h
    match l with
    | [] => rfl
    | [c] => rfl
    | [c, d] => rfl
    | c :: d :: e :: rest =>
      have hcond : ¬(c = ';' ∧ d = '\n' ∧ e = '"') := by
        rintro ⟨hc, hd, he⟩
        subst hc; subst hd; subst he
        simp [containsSeq, leadMatch] at h
      have hrest : containsSeq [';', '\n', '"'] (d :: e :: rest) = false :=
        containsSeq_cons_false h
      have hlen : (d :: e :: rest).length ≤ n := by
        simp only [List.length_cons] at hl ⊢
        omega
      rw [normSeq_cons3, if_neg hcond, ih (d :: e :: rest) hlen hrest]

theorem normSeq_boundary :
    ∀ (n : Nat) (a : List Char), a.length ≤ n →
      containsSeq [';', '\n', '"'] a = false → ∀ (b : List Char),
        normSeq (a ++ ';' :: '\n' :: '"' :: b) =
          a ++ ';' :: '"' :: normSeq b := by
  intro n
  induction n with
  | zero =>
    intro a ha _ b
    have : a = [] := List.length_eq_zero.mp (Nat.le_zero.mp ha)
    subst this
    simp only [List.nil_append]
    rw [normSeq_cons3, if_pos ⟨rfl, rfl, rfl⟩]
  | succ n ih =>
    intro a ha h b
    match a with
    | [] =>
      simp only [List.nil_append]
      rw [normSeq_cons3, if_pos ⟨rfl, rfl, rfl⟩]
    | [c] =>
      have hcond : ¬(c = ';' ∧ (';' : Char) = '\n' ∧ ('\n' : Char) = '"') := by
        rintro ⟨_, hd, _⟩
        exact absurd hd (by decide)
      simp only [List.cons_append, List.nil_append]
      rw [normSeq_cons3, if_neg hcond, normSeq_cons3, if_pos ⟨rfl, rfl, rfl⟩]
    | [c, d] =>
      have hcond1 : ¬(c = ';' ∧ d = '\n' ∧ (';' : Char) = '"') := by
        rintro ⟨_, _, he⟩
        exact absurd he (by decide)
      have hcond2 : ¬(d = ';' ∧ (';' : Char) = '\n' ∧ ('\n' : Char) = '"') := by
        rintro ⟨_, hd, _⟩
        exact absurd hd (by decide)
      simp only [List.cons_append, List.nil_append]
      rw [normSeq_cons3, if_neg hcond1, normSeq_cons3, if_neg hcond2,
        normSeq_cons3, if_pos ⟨rfl, rfl, rfl⟩]
    | c :: d :: e :: a'' =>
      have hcond : ¬(c = ';' ∧ d = '\n' ∧ e = '"') := by
        rintro ⟨hc, hd, he⟩
        subst hc; subst hd; subst he
        simp [containsSeq, leadMatch] at h
      simp only [List.cons_append]
      rw [normSeq_cons3, if_neg hcond]
      have hrest : containsSeq [';', '\n', '"'] (d :: e :: a'') = false :=
        containsSeq_cons_false h
      have hlen : (d :: e :: a'').length ≤ n := by
        simp only [List.length_cons] at ha ⊢
        omega
      have := ih (d :: e :: a'') hlen hrest b
      simp only [List.cons_append] at this
      rw [this]

/-! ### Fact-decoder step lemmas -/

theorem axesStep_spec (row : List String) :
    ∀ (axes : List Record) (m : FactMap) (parts : List String) (off : Nat)
      (m' : FactMap) (parts' : List String) (off' : Nat),
      axesStep row axes m parts off = .ok (m', parts', off') →
      off' = off + axes.length
      ∧ off' ≤ max off row.length
      ∧ parts' = parts ++ (row.drop off).take axes.length
      ∧ (∀ k, (∀ a ∈ axes, dget a "name" ≠ some k) → dget m' k = dget m k)
      ∧ (∀ (i : Nat) (hi : i < axes.length) (nm : PyVal),
          dget (axes.get ⟨i, hi⟩) "name" = some nm →
          (∀ a ∈ axes.drop (i + 1), dget a "name" ≠ some nm) →
          ∃ v, row.get? (off + i) = some v ∧
            dget m' nm = some (.plain (.str v))) := by
  intro axes
  induction axes with
  | nil =>
    intro m parts off m' parts' off' h
    simp only [axesStep, Except.ok.injEq, Prod.mk.injEq] at h
    obtain ⟨hm, hp, ho⟩ := h
    subst hm; subst hp; subst ho
    refine ⟨by simp, Nat.le_max_left _ _, by simp, fun k _ => rfl, ?_⟩
    intro i hi
    simp at hi
  | cons axis rest ih =>
    intro m parts off m' parts' off' h
    simp only [axesStep] at h
    cases hv : row.get? off with
    | none => rw [hv] at h; simp at h
    | some v =>
      rw [hv] at h
      cases hnm : dget axis "name" with
      | none => rw [hnm] at h; simp at h
      | some nm0 =>
        rw [hnm] at h
        simp only at h
        obtain ⟨h1, h2, h3, h4, h5⟩ := ih _ _ _ _ _ _ h
        have hofflt : off < row.length := get?_lt hv
        refine ⟨by simp only [List.length_cons]; omega, ?_, ?_, ?_, ?_⟩
        · have hmax : max (off + 1) row.length = row.length :=
            Nat.max_eq_right (by omega)
          rw [hmax] at h2
          exact Nat.le_trans h2 (Nat.le_max_right _ _)
        · rw [drop_cons_of_get? hv]
          simp only [List.length_cons, List.take_succ_cons]
          rw [h3]
          simp
        · intro k hk
          have hne : nm0 ≠ k := by
            intro hh
            exact hk axis (List.mem_cons_self _ _) (hh ▸ hnm)
          rw [h4 k (fun a ha => hk a (List.mem_cons_of_mem _ ha)), dget_dset]
          simp [hne]
        · intro i hi nm hname hfresh
          cases i with
          | zero =>
            simp only [List.get] at hname
            rw [hnm] at hname
            have hnm0 : nm = nm0 := (Option.some.injEq _ _).mp hname.symm
            subst hnm0
            refine ⟨v, by simpa using hv, ?_⟩
            rw [h4 nm (fun a ha => hfresh a (by simpa using ha)), dget_dset]
            simp
          | succ j =>
            have hj : j < rest.length := by
              simpa using Nat.lt_of_succ_lt_succ hi
            have hname' : dget (rest.get ⟨j, hj⟩) "name" = some nm := by
              simpa using hname
            have hfresh' : ∀ a ∈ rest.drop (j + 1), dget a "name" ≠ some nm := by
              intro a ha
              exact hfresh a (by simpa using ha)
            obtain ⟨w, hw1, hw2⟩ := h5 j hj nm hname' hfresh'
            refine ⟨w, ?_, hw2⟩
            have : off + 1 + j = off + (j + 1) := by omega
            rwa [this] at hw1

theorem timesStep_spec (row : List String) :
    ∀ (times : List Record) (m : FactMap) (parts : List String) (off : Nat)
      (m' : FactMap) (parts' : List String) (off' : Nat),
      timesStep row times m parts off = .ok (m', parts', off') →
      off' = off + times.length
      ∧ off' ≤ max off row.length
      ∧ parts' = parts ++ (row.drop off).take times.length
      ∧ (∀ k, (∀ a ∈ times, dget a "name" ≠ some k) → dget m' k = dget m k)
      ∧ (∀ (i : Nat) (hi : i < times.length) (nm : PyVal),
          dget (times.get ⟨i, hi⟩) "name" = some nm →
          (∀ a ∈ times.drop (i + 1), dget a "name" ≠ some nm) →
          ∃ v f u, row.get? (off + i) = some v ∧ parse_date v = some (f, u) ∧
            dget m' nm = some (.timeEntry v f u)) := by
  intro times
  induction times with
  | nil =>
    intro m parts off m' parts' off' h
    simp only [timesStep, Except.ok.injEq, Prod.mk.injEq] at h
    obtain ⟨hm, hp, ho⟩ := h
    subst hm; subst hp; subst ho
    refine ⟨by simp, Nat.le_max_left _ _, by simp, fun k _ => rfl, ?_⟩
    intro i hi
    simp at hi
  | cons time rest ih =>
    intro m parts off m' parts' off' h
    simp only [timesStep] at h
    cases hv : row.get? off with
    | none => rw [hv] at h; simp at h
    | some v =>
      rw [hv] at h
      simp only at h
      cases hd : parse_date v with
      | none => rw [hd] at h; simp at h
      | some fu =>
        obtain ⟨f, u⟩ := fu
        rw [hd] at h
        simp only at h
        cases hnm : dget time "name" with
        | none => rw [hnm] at h; simp at h
        | some nm0 =>
          rw [hnm] at h
          simp only at h
          obtain ⟨h1, h2, h3, h4, h5⟩ := ih _ _ _ _ _ _ h
          have hofflt : off < row.length := get?_lt hv
          refine ⟨by simp only [List.length_cons]; omega, ?_, ?_, ?_, ?_⟩
          · have hmax : max (off + 1) row.length = row.length :=
              Nat.max_eq_right (by omega)
            rw [hmax] at h2
            exact Nat.le_trans h2 (Nat.le_max_right _ _)
          · rw [drop_cons_of_get? hv]
            simp only [List.length_cons, List.take_succ_cons]
            rw [h3]
            simp
          · intro k hk
            have hne : nm0 ≠ k := by
              intro hh
              exact hk time (List.mem_cons_self _ _) (hh ▸ hnm)
            rw [h4 k (fun a ha => hk a (List.mem_cons_of_mem _ ha)), dget_dset]
            simp [hne]
          · intro i hi nm hname hfresh
            cases i with
            | zero =>
              simp only [List.get] at hname
              rw [hnm] at hname
              have hnm0 : nm = nm0 := (Option.some.injEq _ _).mp hname.symm
              subst hnm0
              refine ⟨v, f, u, by simpa using hv, hd, ?_⟩
              rw [h4 nm (fun a ha => hfresh a (by simpa using ha)), dget_dset]
              simp
            | succ j =>
              have hj : j < rest.length := by
                simpa using Nat.lt_of_succ_lt_succ hi
              have hname' : dget (rest.get ⟨j, hj⟩) "name" = some nm := by
                simpa using hname
              have hfresh' : ∀ a ∈ rest.drop (j + 1), dget a "name" ≠ some nm := by
                intro a ha
                exact hfresh a (by simpa using ha)
              obtain ⟨w, f', u', hw1, hw2, hw3⟩ := h5 j hj nm hname' hfresh'
              refine ⟨w, f', u', ?_, hw2, hw3⟩
              have : off + 1 + j = off + (j + 1) := by omega
              rwa [this] at hw1

theorem measuresStep_spec (row : List String) :
    ∀ (measures : List Record) (m : FactMap) (off : Nat)
      (m' : FactMap) (off' : Nat),
      measuresStep row measures m off = .ok (m', off') →
      off' = off + 4 * measures.length
      ∧ off' ≤ max off row.length
      ∧ (∀ k, (∀ a ∈ measures, dget a "name" ≠ some k) → dget m' k = dget m k)
      ∧ (∀ (i : Nat) (hi : i < measures.length) (nm : PyVal),
          dget (measures.get ⟨i, hi⟩) "name" = some nm →
          (∀ a ∈ measures.drop (i + 1), dget a "name" ≠ some nm) →
          ∃ v value q l e dt0,
            row.get? (off + 4 * i) = some v ∧
            row.get? (off + 4 * i + 1) = some q ∧
            row.get? (off + 4 * i + 2) = some l ∧
            row.get? (off + 4 * i + 3) = some e ∧
            dget (measures.get ⟨i, hi⟩) "data_type" = some dt0 ∧
            (if dt0 = PyVal.str "GANZ" then (parseInt v).map PyVal.int
             else if isFloatLit v then some (PyVal.float v) else none) = some value ∧
            dget m' nm = some (.mdict
              (dset (dset (dset (dset (ddel (measures.get ⟨i, hi⟩) "name")
                "value" value) "quality" (.str q)) "locked" (.str l))
                "error" (.str e)))) := by
  intro measures
  induction measures with
  | nil =>
    intro m off m' off' h
    simp only [measuresStep, Except.ok.injEq, Prod.mk.injEq] at h
    obtain ⟨hm, ho⟩ := h
    subst hm; subst ho
    refine ⟨by simp, Nat.le_max_left _ _, fun k _ => rfl, ?_⟩
    intro i hi
    simp at hi
  | cons meas rest ih =>
    intro m off m' off' h
    simp only [measuresStep] at h
    cases hnm : dget meas "name" with
    | none => rw [hnm] at h; simp at h
    | some nm0 =>
      rw [hnm] at h
      simp only at h
      cases hdt : dget meas "data_type" with
      | none => rw [hdt] at h; simp at h
      | some dt =>
        rw [hdt] at h
        simp only at h
        cases hv : row.get? off with
        | none => rw [hv] at h; simp at h
        | some v0 =>
          rw [hv] at h
          simp only at h
          cases hval : (if dt = PyVal.str "GANZ" then (parseInt v0).map PyVal.int
              else if isFloatLit v0 then some (PyVal.float v0) else none) with
          | none => rw [hval] at h; simp at h
          | some value =>
            rw [hval] at h
            simp only at h
            cases hq : row.get? (off + 1) with
            | none => rw [hq] at h; simp at h
            | some q =>
              rw [hq] at h
              simp only at h
              cases hl : row.get? (off + 2) with
              | none => rw [hl] at h; simp at h
              | some l =>
                rw [hl] at h
                simp only at h
                cases he : row.get? (off + 3) with
                | none => rw [he] at h; simp at h
                | some e =>
                  rw [he] at h
                  simp only at h
                  obtain ⟨h1, h2, h3, h4⟩ := ih _ _ _ _ h
                  have hofflt : off + 3 < row.length := get?_lt he
                  refine ⟨by simp only [List.length_cons]; omega, ?_, ?_, ?_⟩
                  · have hmax : max (off + 4) row.length = row.length :=
                      Nat.max_eq_right (by omega)
                    rw [hmax] at h2
                    exact Nat.le_trans h2 (Nat.le_max_right _ _)
                  · intro k hk
                    have hne : nm0 ≠ k := by
                      intro hh
                      exact hk meas (List.mem_cons_self _ _) (hh ▸ hnm)
                    rw [h3 k (fun a ha => hk a (List.mem_cons_of_mem _ ha)), dget_dset]
                    simp [hne]
                  · intro i hi nm hname hfresh
                    cases i with
                    | zero =>
                      simp only [List.get] at hname ⊢
                      rw [hnm] at hname
                      have hnm0 : nm = nm0 := (Option.some.injEq _ _).mp hname.symm
                      subst hnm0
                      refine ⟨v0, value, q, l, e, dt,
                        by simpa using hv, by simpa using hq,
                        by simpa using hl, by simpa using he, hdt, hval, ?_⟩
                      rw [h3 nm (fun a ha => hfresh a (by simpa using ha)), dget_dset]
                      simp
                    | succ j =>
                      have hj : j < rest.length := by
                        simpa using Nat.lt_of_succ_lt_succ hi
                      have hname' : dget (rest.get ⟨j, hj⟩) "name" = some nm := by
                        simpa using hname
                      have hfresh' : ∀ a ∈ rest.drop (j + 1),
                          dget a "name" ≠ some nm := by
                        intro a ha
                        exact hfresh a (by simpa using ha)
                      obtain ⟨w, wv, wq, wl, we, wdt, hw1, hw2, hw3, hw4, hw5, hw6, hw7⟩ :=
                        h4 j hj nm hname' hfresh'
                      have e1 : off + 4 + 4 * j = off + 4 * (j + 1) := by omega
                      have e2 : off + 4 + 4 * j + 1 = off + 4 * (j + 1) + 1 := by omega
                      have e3 : off + 4 + 4 * j + 2 = off + 4 * (j + 1) + 2 := by omega
                      have e4 : off + 4 + 4 * j + 3 = off + 4 * (j + 1) + 3 := by omega
                      rw [e1] at hw1
                      rw [e2] at hw2
                      rw [e3] at hw3
                      rw [e4] at hw4
                      exact ⟨w, wv, wq, wl, we, wdt, hw1, hw2, hw3, hw4,
                        by simpa using hw5, hw6, by simpa using hw7⟩

theorem axesStep_ne_sm (row : List String) :
    ∀ (axes : List Record) (m : FactMap) (parts : List String) (off : Nat),
      off + axes.length ≤ row.length →
      axesStep row axes m parts off ≠ .error .schemaMismatch := by
  intro axes
  induction axes with
  | nil => intro m parts off _; simp [axesStep]
  | cons axis rest ih =>
    intro m parts off hlen
    have hofflt : off < row.length := by
      simp only [List.length_cons] at hlen
      omega
    obtain ⟨v, hv⟩ := get?_of_lt hofflt
    simp only [axesStep, hv]
    cases hnm : dget axis "name" with
    | none => simp
    | some nm0 =>
      simp only
      apply ih
      simp only [List.length_cons] at hlen
      omega

theorem timesStep_ne_sm (row : List String) :
    ∀ (times : List Record) (m : FactMap) (parts : List String) (off : Nat),
      off + times.length ≤ row.length →
      timesStep row times m parts off ≠ .error .schemaMismatch := by
  intro times
  induction times with
  | nil => intro m parts off _; simp [timesStep]
  | cons time rest ih =>
    intro m parts off hlen
    have hofflt : off < row.length := by
      simp only [List.length_cons] at hlen
      omega
    obtain ⟨v, hv⟩ := get?_of_lt hofflt
    simp only [timesStep, hv]
    cases hd : parse_date v with
    | none => simp
    | some fu =>
      obtain ⟨f, u⟩ := fu
      cases hnm : dget time "name" with
      | none => simp
      | some nm0 =>
        simp only
        apply ih
        simp only [List.length_cons] at hlen
        omega

theorem measuresStep_ne_sm (row : List String) :
    ∀ (measures : List Record) (m : FactMap) (off : Nat),
      off + 4 * measures.length ≤ row.length →
      measuresStep row measures m off ≠ .error .schemaMismatch := by
  intro measures
  induction measures with
  | nil => intro m off _; simp [measuresStep]
  | cons meas rest ih =>
    intro m off hlen
    have hofflt : off + 3 < row.length := by
      simp only [List.length_cons] at hlen
      omega
    obtain ⟨v0, hv⟩ := get?_of_lt (show off < row.length by omega)
    obtain ⟨q, hq⟩ := get?_of_lt (show off + 1 < row.length by omega)
    obtain ⟨l, hl⟩ := get?_of_lt (show off + 2 < row.length by omega)
    obtain ⟨e, he⟩ := get?_of_lt hofflt
    simp only [measuresStep, hv, hq, hl, he]
    cases hnm : dget meas "name" with
    | none => simp
    | some nm0 =>
      cases hdt : dget meas "data_type" with
      | none => simp
      | some dt =>
        cases hval : (if dt = PyVal.str "GANZ" then (parseInt v0).map PyVal.int
            else if isFloatLit v0 then some (PyVal.float v0) else none) with
        | none => simp [hval]
        | some value =>
          simp only [hval]
          apply ih
          simp only [List.length_cons] at hlen
          omega

/-! ### Section-splitter lemma -/

theorem sectionsFold_spec :
    ∀ (lines : List String) (cur : Option String)
      (acc : List (Option String × List String))
      (m : List (Option String × List String)),
      sectionsFold cur acc lines = .ok m →
      ∀ k, dget m k =
        match dget acc k with
        | some old => some (old ++ linesFor cur lines k)
        | none =>
          if linesFor cur lines k = [] then none else some (linesFor cur lines k) := by
  intro lines
  induction lines with
  | nil =>
    intro cur acc m h k
    simp only [sectionsFold, Except.ok.injEq] at h
    subst h
    cases hacc : dget acc k <;> simp [linesFor, assignedFrom, hacc]
  | cons row rest ih =>
    intro cur acc m h k
    simp only [sectionsFold] at h
    by_cases hK : leadMatch ['K', ';'] row.data = true
    · rw [if_pos hK] at h
      cases hsp : splitSemi2 row with
      | nil => rw [hsp] at h; simp at h
      | cons x tl =>
        cases tl with
        | nil => rw [hsp] at h; simp at h
        | cons name tl2 =>
          cases tl2 with
          | nil => rw [hsp] at h; simp at h
          | cons z tl3 =>
            cases tl3 with
            | cons w tl4 => rw [hsp] at h; simp at h
            | nil =>
              rw [hsp] at h
              simp only at h
              have hsc : specCur cur row = some name := by
                simp [specCur, hK, hsp]
              have hlf : linesFor cur (row :: rest) k =
                  (if some name = k then [row] else []) ++
                    linesFor (some name) rest k := by
                simp only [linesFor, assignedFrom, hsc, List.filter_cons]
                by_cases hk : some name = k
                · simp [hk]
                · simp [hk]
              have := ih (some name) (dapp acc (some name) row) m h k
              rw [hlf]
              by_cases hk : some name = k
              · rw [dget_dapp, if_pos hk, hk] at this
                simp only [if_pos hk]
                cases hacc : dget acc k with
                | some old =>
                  rw [hacc] at this
                  simp only [Option.getD] at this
                  rw [this]
                  simp [hk]
                | none =>
                  rw [hacc] at this
                  simp only [Option.getD, List.nil_append] at this
                  rw [this]
                  simp [hk]
              · rw [dget_dapp, if_neg hk] at this
                simpa [hk] using this
    · rw [if_neg hK] at h
      have hsc : specCur cur row = cur := by
        simp [specCur, hK]
      have hlf : linesFor cur (row :: rest) k =
          (if cur = k then [row] else []) ++ linesFor cur rest k := by
        simp only [linesFor, assignedFrom, hsc, List.filter_cons]
        by_cases hk : cur = k
        · simp [hk]
        · simp [hk]
      have := ih cur (dapp acc cur row) m h k
      rw [hlf]
      by_cases hk : cur = k
      · rw [dget_dapp, if_pos hk, hk] at this
        simp only [if_pos hk]
        cases hacc : dget acc k with
        | some old =>
          rw [hacc] at this
          simp only [Option.getD] at this
          rw [this]
          simp [hk]
        | none =>
          rw [hacc] at this
          simp only [Option.getD, List.nil_append] at this
          rw [this]
          simp [hk]
      · rw [dget_dapp, if_neg hk] at this
        simpa [hk] using this

/-! ### Claim theorems -/

/-- Claim C1 (counterexample): record construction does not store field
`i` of a decoded row under normalized column `i`.  For the section with
header `K;ME;a;b` and data row `D;x;y`, `Section.columns` (after removing
the row-type discriminator) is `["me", "a", "b"]`, the decoded row is
`["x", "y"]`, and field 0 (`"x"`) is stored under column `"a"` (index 1),
not under column `"me"` (index 0), which gets no value at all. -/
theorem section_pairing_cex :
    sectionColumns (fun c => c) "K;ME;a;b" = ["me", "a", "b"] ∧
    sectionRecords (fun c => c) [] [] ["K;ME;a;b", "D;x;y"] =
      some [[("a", PyVal.str "x"), ("b", PyVal.str "y")]] ∧
    dget [("a", PyVal.str "x"), ("b", PyVal.str "y")] "me" = none ∧
    dget [("a", PyVal.str "x"), ("b", PyVal.str "y")] "a" = some (PyVal.str "x") := by
  refine ⟨?_, ?_, ?_, ?_⟩ <;> decide

/-- Claim C1 (amended): record construction pairs each decoded row
positionally with `Section.columns` shifted by one: field `i` of a decoded
row is paired with (and, when stored, stored under) normalized column
`i + 1`, because `Section.__iter__` zips `self.columns[1:]` with the row
while `Section.columns` has already removed only the header's row-type
discriminator. -/
theorem section_pairing (tr : String → String) (headerLine : String)
    (row : List String) (i : Nat) :
    (recordPairs tr headerLine row).get? i =
      ((sectionColumns tr headerLine).get? (i + 1)).bind
        (fun c => (row.get? i).map (fun v => (c, v))) := by
  unfold recordPairs
  rw [zip_get?, drop_get?, Nat.add_comm 1 i]

/-- Claim C2 (counterexample): a Value's identity is not the key generator
applied to the value's `name`: `name` is deleted from the merged data
before `Value.id` reads it, so two values built from catalog records that
differ only in `name` have the same internal data (hence the same id), and
the id differs from `make_key` applied with the actual name. -/
theorem value_identity_cex :
    valueData [("name", PyVal.str "A"), ("key", PyVal.str "k")] [] =
      some [("key", PyVal.str "k")] ∧
    valueData [("name", PyVal.str "B"), ("key", PyVal.str "k")] [] =
      some [("key", PyVal.str "k")] ∧
    valueId [("key", PyVal.str "k")] ≠
      makeKey [some (PyVal.str "A"), some (PyVal.str "k"), none, none] := by
  refine ⟨rfl, rfl, ?_⟩
  decide

/-- Claim C2 (amended): for every Value built by merging a base catalog
record with an association record, the `name` key is absent from its data
(it was deleted during construction), so its identity is the Identity Key
Generator applied to `None`, then the value's `key`, `valid_from` and
`valid_until` fields, in that order — the name never contributes. -/
theorem value_identity (base assoc : Record) (d : Record)
    (h : valueData base assoc = some d) :
    dget d "name" = none ∧
    valueId d = makeKey [none, dget d "key",
      dget d "valid_from", dget d "valid_until"] := by
  simp only [valueData] at h
  by_cases hd : dhas (dupdate base assoc) "name"
  · rw [if_pos hd] at h
    have hdd : d = ddel (dupdate base assoc) "name" :=
      ((Option.some.injEq _ _).mp h).symm
    have hn : dget d "name" = none := by
      rw [hdd, dget_ddel]
      simp
    refine ⟨hn, ?_⟩
    simp only [valueId, hn]
  · rw [if_neg hd] at h
    simp at h

/-- Claim C2 (witness): the amended theorem at a concrete value. -/
theorem value_identity_witness :
    dget [("key", PyVal.str "k")] "name" = none ∧
    valueId [("key", PyVal.str "k")] =
      makeKey [none, dget [("key", PyVal.str "k")] "key",
        dget [("key", PyVal.str "k")] "valid_from",
        dget [("key", PyVal.str "k")] "valid_until"] :=
  value_identity [("name", PyVal.str "A"), ("key", PyVal.str "k")] [] _ rfl

/-- Claim C4 (counterexample): the line-rejoining normalization of
`Section.rows` rewrites delimiter, newline, quote (three characters) to
delimiter, quote — it rewrites `";\n\""`, which contains no occurrence of
the claimed delimiter, quote, newline, quote pattern, and it leaves
`";\"\n\""`, which is exactly that claimed pattern, unchanged. -/
theorem rows_normalization_cex :
    normalizeBlob (String.mk [';', '\n', '"']) = String.mk [';', '"'] ∧
    normalizeBlob (String.mk [';', '"', '\n', '"']) =
      String.mk [';', '"', '\n', '"'] := by
  refine ⟨rfl, rfl⟩

/-- Claim C4 (amended): before delimiter-aware quoted parsing, the Section
Decoder's line-rejoining normalization removes exactly a newline occurring
in the pattern delimiter, newline, quote, rewriting that sequence to
delimiter, quote: every such occurrence after an occurrence-free prefix is
rewritten, and an occurrence-free text is left unchanged. -/
theorem rows_normalization (a b : List Char) :
    (containsSeq [';', '\n', '"'] a = false →
      normSeq (a ++ ';' :: '\n' :: '"' :: b) =
        a ++ ';' :: '"' :: normSeq b) ∧
    (containsSeq [';', '\n', '"'] a = false → normSeq a = a) ∧
    normalizeBlob (String.mk (a ++ ';' :: '\n' :: '"' :: b)) =
      String.mk (normSeq (a ++ ';' :: '\n' :: '"' :: b)) :=
  ⟨fun h => normSeq_boundary a.length a (Nat.le_refl _) h b,
   fun h => normSeq_id_of_free a.length a (Nat.le_refl _) h,
   rfl⟩

/-- Claim C4 (witness): the amended theorem at a concrete input. -/
theorem rows_normalization_witness :
    normSeq (['a'] ++ ';' :: '\n' :: '"' :: ['b']) =
      ['a'] ++ ';' :: '"' :: normSeq ['b'] ∧
    normSeq ['a'] = ['a'] :=
  ⟨(rows_normalization ['a'] ['b']).1 (by decide),
   (rows_normalization ['a'] ['b']).2.1 (by decide)⟩

/-- Claim C7 (confirmed): during record construction a field whose column
has a registered coercion is coerced before the ignore-set check, so a row
containing a malformed value in an ignored-but-typed column fails to
decode (yields `none`) instead of silently skipping the field. -/
theorem ignored_typed_coercion (ignore localized : List String)
    (pairs : List (String × String)) (key value : String)
    (hmem : (key, value) ∈ pairs) (hne : value ≠ "")
    (hty : (fieldTypes key).isSome = true) (hig : key ∈ ignore)
    (hc : coerceField key value = none) :
    buildRecord ignore localized pairs = none := by
  simp only [buildRecord]
  rw [buildStep_fail ignore key value hne hc pairs [] (PyVal.bool true) hmem]

/-- Claim C7 (witness): the theorem at a concrete malformed
ignored-but-typed field. -/
theorem ignored_typed_coercion_witness :
    buildRecord ["eu_vbd"] [] [("eu_vbd", "zzz")] = none :=
  ignored_typed_coercion ["eu_vbd"] [] [("eu_vbd", "zzz")] "eu_vbd" "zzz"
    (by decide) (by decide) (by decide) (by decide) (by decide)

/-- Claim C8 (confirmed): if the `trans_flag_2` field of a row decodes to
false (and no later duplicate of the flag column follows), none of the
localized-field names appears in the yielded record; and when the flag
column is absent from the pairs, the flag stays at its default (translated
= true) and the record is yielded unfiltered. -/
theorem translation_flag_filter (ignore localized : List String)
    (l1 l2 : List (String × String)) (v : String) (r : Record) :
    (v ≠ "" → parse_bool v = some false →
      (∀ p ∈ l2, p.1 ≠ "trans_flag_2") →
      buildRecord ignore localized (l1 ++ ("trans_flag_2", v) :: l2) = some r →
      ∀ k ∈ localized, dget r k = none) ∧
    (∀ (pairs : List (String × String)) (obj : Record) (isTr : PyVal),
      (∀ p ∈ pairs, p.1 ≠ "trans_flag_2") →
      buildStep ignore pairs [] (PyVal.bool true) = some (obj, isTr) →
      isTr = PyVal.bool true ∧ buildRecord ignore localized pairs = some obj) := by
  constructor
  · intro hv hb hl2 hr k hk
    simp only [buildRecord] at hr
    cases hstep : buildStep ignore (l1 ++ ("trans_flag_2", v) :: l2) []
        (PyVal.bool true) with
    | none => rw [hstep] at hr; simp at hr
    | some ot =>
      obtain ⟨obj, isTr⟩ := ot
      rw [hstep] at hr
      simp only at hr
      rw [buildStep_append] at hstep
      cases hl1 : buildStep ignore l1 [] (PyVal.bool true) with
      | none => rw [hl1] at hstep; simp at hstep
      | some o1t1 =>
        obtain ⟨o1, t1⟩ := o1t1
        rw [hl1] at hstep
        simp only at hstep
        have hcf : coerceField "trans_flag_2" v = some (PyVal.bool false) := by
          have hft : fieldTypes "trans_flag_2" =
              some (fun s => (parse_bool s).map PyVal.bool) := rfl
          simp only [coerceField, hft, hb]
          rfl
        simp only [buildStep] at hstep
        rw [if_neg hv, hcf] at hstep
        simp at hstep
        have hflag : isTr = PyVal.bool false := by
          by_cases hig : "trans_flag_2" ∈ ignore
          · rw [if_pos hig] at hstep
            exact buildStep_flag_const ignore l2 o1 (PyVal.bool false)
              obj isTr hl2 hstep
          · rw [if_neg hig] at hstep
            exact buildStep_flag_const ignore l2 _ (PyVal.bool false)
              obj isTr hl2 hstep
        rw [hflag] at hr
        simp only [pyTruthy, if_neg] at hr
        have hrr : r = localized.foldl (fun o k => ddel o k) obj := by
          simpa using hr.symm
        rw [hrr]
        exact dget_foldl_ddel_mem localized obj k hk
  · intro pairs obj isTr hno hstep
    have ht : isTr = PyVal.bool true :=
      buildStep_flag_const ignore pairs [] (PyVal.bool true) obj isTr hno hstep
    refine ⟨ht, ?_⟩
    simp only [buildRecord, hstep, ht, pyTruthy]
    simp

/-- Claim C8 (witness): both parts of the theorem at concrete inputs: a
localized field present before filtering disappears when the flag decodes
to false, and a record without the flag column is yielded unfiltered. -/
theorem translation_flag_filter_witness :
    dget [("trans_flag_2", PyVal.bool false)] "loc_f" = none ∧
    (PyVal.bool true = PyVal.bool true ∧
      buildRecord [] ["loc_f"] [("x", "y")] = some [("x", PyVal.str "y")]) :=
  ⟨(translation_flag_filter [] ["loc_f"] [("loc_f", "x")] [] "nein"
      [("trans_flag_2", PyVal.bool false)]).1 (by decide) rfl (by decide) rfl
      "loc_f" (by decide),
   (translation_flag_filter [] ["loc_f"] [] [] "" []).2
      [("x", "y")] [("x", PyVal.str "y")] (PyVal.bool true) (by decide) rfl⟩

/-- Claim C9 (confirmed): every key present in a record produced by
section iteration comes from a (column, value) pair with non-empty raw
text — a field whose raw value is empty is omitted entirely and never
contributes a key. -/
theorem empty_fields_omitted (ignore localized : List String)
    (pairs : List (String × String)) (r : Record)
    (hr : buildRecord ignore localized pairs = some r) :
    ∀ k, dhas r k = true → ∃ v, (k, v) ∈ pairs ∧ v ≠ "" := by
  intro k hk
  simp only [buildRecord] at hr
  cases hstep : buildStep ignore pairs [] (PyVal.bool true) with
  | none => rw [hstep] at hr; simp at hr
  | some ot =>
    obtain ⟨obj, isTr⟩ := ot
    rw [hstep] at hr
    simp only at hr
    have hr' : r = if pyTruthy isTr then obj
        else localized.foldl (fun o k => ddel o k) obj := by
      simpa using hr.symm
    have hobj : (dget obj k).isSome = true := by
      by_cases ht : pyTruthy isTr
      · rw [hr', if_pos ht] at hk
        exact hk
      · rw [hr', if_neg ht] at hk
        exact dget_foldl_ddel_isSome localized obj k hk
    rcases buildStep_keys ignore pairs [] (PyVal.bool true) obj isTr hstep k hobj with
      hl | hex
    · simp [dget] at hl
    · exact hex

/-- Claim C9 (witness): the theorem at a concrete record with one empty
and one non-empty field. -/
theorem empty_fields_omitted_witness :
    ∃ v, ("b", v) ∈ [("a", ""), ("b", "x")] ∧ v ≠ "" :=
  empty_fields_omitted [] [] [("a", ""), ("b", "x")] [("b", PyVal.str "x")]
    rfl "b" rfl

/-- Claim C10 (confirmed): every successfully constructed Value has no
`name` key in its internal data, its `to_dict` output has no `name` key
either, and construction fails when neither input record supplies a
`name` field. -/
theorem value_name_deleted (base assoc : Record) :
    (∀ d, valueData base assoc = some d →
      dget d "name" = none ∧ dhas (valueToDict d) "name" = false) ∧
    (dget base "name" = none → dget assoc "name" = none →
      valueData base assoc = none) := by
  constructor
  · intro d h
    have hn : dget d "name" = none := (value_identity base assoc d h).1
    refine ⟨hn, ?_⟩
    simp only [valueToDict, dhas, dget_dset]
    rw [if_neg (by decide)]
    rw [hn]
    rfl
  · intro hb ha
    simp only [valueData]
    have : dget (dupdate base assoc) "name" = none := by
      rw [dget_dupdate_of_none assoc base "name" ha]
      exact hb
    rw [if_neg (by simp [dhas, this])]

/-- Claim C10 (witness): the theorem at concrete records: a value built
from a named catalog record has no `name` in data and `to_dict`, and
construction from records without `name` fails. -/
theorem value_name_deleted_witness :
    (dget [("key", PyVal.str "k")] "name" = none ∧
      dhas (valueToDict [("key", PyVal.str "k")]) "name" = false) ∧
    valueData [("key", PyVal.str "k")] [] = none :=
  ⟨(value_name_deleted [("name", PyVal.str "A"), ("key", PyVal.str "k")] []).1
      [("key", PyVal.str "k")] rfl,
   (value_name_deleted [("key", PyVal.str "k")] []).2 rfl rfl⟩

/-- Claim C3 (counterexample): a fact row with more fields than
`len(axes) + len(times) + 4*len(measures)` decodes successfully — the
extra fields are silently ignored, so a field count different from the
schema requirement does not always fail. -/
theorem fact_decode_field_count_cex :
    factRequired [[("name", PyVal.str "a")]] [] [] = 1 ∧
    factMapping [[("name", PyVal.str "a")]] [] [] ["x", "extra"] =
      .ok [(PyVal.str "a", MapVal.plain (PyVal.str "x")),
           (PyVal.str "fact_id", MapVal.plain (PyVal.str "s:x"))] :=
  ⟨rfl, rfl⟩

/-- Claim C3 (amended): decoding a fact row with fewer fields than
`len(axes) + len(times) + 4*len(measures)` always fails (with
`SchemaMismatch` unless an earlier coercion or key failure preempts it),
and decoding a row with at least that many fields never fails with
`SchemaMismatch`. -/
theorem fact_decode_field_count (axes times measures : List Record)
    (row : List String) :
    (row.length < factRequired axes times measures →
      ∀ mm, factMapping axes times measures row ≠ .ok mm) ∧
    (factRequired axes times measures ≤ row.length →
      factMapping axes times measures row ≠ .error .schemaMismatch) := by
  constructor
  · intro hlt mm hEq
    simp only [factMapping] at hEq
    cases h1 : axesStep row axes [] [] 0 with
    | error e => rw [h1] at hEq; simp at hEq
    | ok t1 =>
      obtain ⟨m1, p1, o1⟩ := t1
      rw [h1] at hEq
      simp only at hEq
      cases h2 : timesStep row times m1 p1 o1 with
      | error e => rw [h2] at hEq; simp at hEq
      | ok t2 =>
        obtain ⟨m2, p2, o2⟩ := t2
        rw [h2] at hEq
        simp only at hEq
        cases h3 : measuresStep row measures m2 o2 with
        | error e => rw [h3] at hEq; simp at hEq
        | ok t3 =>
          obtain ⟨m3, o3⟩ := t3
          obtain ⟨e1, b1, -, -, -⟩ := axesStep_spec row axes [] [] 0 m1 p1 o1 h1
          obtain ⟨e2, b2, -, -, -⟩ := timesStep_spec row times m1 p1 o1 m2 p2 o2 h2
          obtain ⟨e3, b3, -, -⟩ := measuresStep_spec row measures m2 o2 m3 o3 h3
          have hb1 : o1 ≤ row.length := by
            rw [Nat.max_eq_right (Nat.zero_le _)] at b1
            exact b1
          have hb2 : o2 ≤ row.length := by
            rw [Nat.max_eq_right hb1] at b2
            exact b2
          have hb3 : o3 ≤ row.length := by
            rw [Nat.max_eq_right hb2] at b3
            exact b3
          simp only [factRequired] at hlt
          omega
  · intro hge hEq
    simp only [factRequired] at hge
    simp only [factMapping] at hEq
    cases h1 : axesStep row axes [] [] 0 with
    | error e =>
      rw [h1] at hEq
      simp only [Except.error.injEq] at hEq
      subst hEq
      exact axesStep_ne_sm row axes [] [] 0 (by omega) h1
    | ok t1 =>
      obtain ⟨m1, p1, o1⟩ := t1
      rw [h1] at hEq
      simp only at hEq
      obtain ⟨e1, -, -, -, -⟩ := axesStep_spec row axes [] [] 0 m1 p1 o1 h1
      cases h2 : timesStep row times m1 p1 o1 with
      | error e =>
        rw [h2] at hEq
        simp only [Except.error.injEq] at hEq
        subst hEq
        exact timesStep_ne_sm row times m1 p1 o1 (by omega) h2
      | ok t2 =>
        obtain ⟨m2, p2, o2⟩ := t2
        rw [h2] at hEq
        simp only at hEq
        obtain ⟨e2, -, -, -, -⟩ := timesStep_spec row times m1 p1 o1 m2 p2 o2 h2
        cases h3 : measuresStep row measures m2 o2 with
        | error e =>
          rw [h3] at hEq
          simp only [Except.error.injEq] at hEq
          subst hEq
          exact measuresStep_ne_sm row measures m2 o2 (by omega) h3
        | ok t3 =>
          obtain ⟨m3, o3⟩ := t3
          rw [h3] at hEq
          simp at hEq

/-- Claim C3 (witness): the amended theorem at concrete rows: a too-short
row never decodes, and a row with exactly the required field count never
raises `SchemaMismatch`. -/
theorem fact_decode_field_count_witness :
    factMapping [[("name", PyVal.str "a")]] [] [] [] ≠ .ok [] ∧
    factMapping [[("name", PyVal.str "a")]] [] [] ["x"] ≠
      .error .schemaMismatch :=
  ⟨(fact_decode_field_count [[("name", PyVal.str "a")]] [] [] []).1
      (by decide) [],
   (fact_decode_field_count [[("name", PyVal.str "a")]] [] [] ["x"]).2
      (by decide)⟩

/-- Claim C5 (confirmed): `Fact.mapping` consumes the raw row strictly in
schema order — one field per axis from offset 0, then one per time
dimension, then four consecutive fields per measure — and the fact's
identity is the key generator applied to the ordered raw axis field
strings followed by the raw time field strings.  Under well-formed
(pairwise distinct) schema names, each axis entry holds row field `i`,
each time entry holds row field `len(axes) + j` with its parsed range, and
each measure dict holds the four fields starting at
`len(axes) + len(times) + 4*k`. -/
theorem fact_mapping_schema_order (axes times measures : List Record)
    (row : List String) (m : FactMap)
    (h : factMapping axes times measures row = .ok m) :
    dget m (PyVal.str "fact_id") =
      some (.plain (.str (makeKey
        ((row.take axes.length ++
          (row.drop axes.length).take times.length).map
          (fun s => some (PyVal.str s)))))) ∧
    factRequired axes times measures ≤ row.length ∧
    (wfNames axes times measures →
      (∀ (i : Nat) (hi : i < axes.length) (nm : PyVal),
        dget (axes.get ⟨i, hi⟩) "name" = some nm →
        ∃ v, row.get? i = some v ∧ dget m nm = some (.plain (.str v))) ∧
      (∀ (j : Nat) (hj : j < times.length) (nm : PyVal),
        dget (times.get ⟨j, hj⟩) "name" = some nm →
        ∃ v f u, row.get? (axes.length + j) = some v ∧
          parse_date v = some (f, u) ∧
          dget m nm = some (.timeEntry v f u)) ∧
      (∀ (k : Nat) (hk : k < measures.length) (nm : PyVal),
        dget (measures.get ⟨k, hk⟩) "name" = some nm →
        ∃ v value q l e dt0,
          row.get? (axes.length + times.length + 4 * k) = some v ∧
          row.get? (axes.length + times.length + 4 * k + 1) = some q ∧
          row.get? (axes.length + times.length + 4 * k + 2) = some l ∧
          row.get? (axes.length + times.length + 4 * k + 3) = some e ∧
          dget (measures.get ⟨k, hk⟩) "data_type" = some dt0 ∧
          (if dt0 = PyVal.str "GANZ" then (parseInt v).map PyVal.int
           else if isFloatLit v then some (PyVal.float v) else none) =
            some value ∧
          dget m nm = some (.mdict
            (dset (dset (dset (dset (ddel (measures.get ⟨k, hk⟩) "name")
              "value" value) "quality" (.str q)) "locked" (.str l))
              "error" (.str e))))) := by
  simp only [factMapping] at h
  cases h1 : axesStep row axes [] [] 0 with
  | error e => rw [h1] at h; simp at h
  | ok t1 =>
    obtain ⟨m1, p1, o1⟩ := t1
    rw [h1] at h
    simp only at h
    cases h2 : timesStep row times m1 p1 o1 with
    | error e => rw [h2] at h; simp at h
    | ok t2 =>
      obtain ⟨m2, p2, o2⟩ := t2
      rw [h2] at h
      simp only at h
      cases h3 : measuresStep row measures m2 o2 with
      | error e => rw [h3] at h; simp at h
      | ok t3 =>
        obtain ⟨m3, o3⟩ := t3
        rw [h3] at h
        simp only [Except.ok.injEq] at h
        subst h
        obtain ⟨e1, b1, hp1, hf1, hx1⟩ :=
          axesStep_spec row axes [] [] 0 m1 p1 o1 h1
        obtain ⟨e2, b2, hp2, hf2, hx2⟩ :=
          timesStep_spec row times m1 p1 o1 m2 p2 o2 h2
        obtain ⟨e3, b3, hf3, hx3⟩ :=
          measuresStep_spec row measures m2 o2 m3 o3 h3
        have ho1 : o1 = axes.length := by omega
        have ho2 : o2 = axes.length + times.length := by omega
        have hb1 : o1 ≤ row.length := by
          rw [Nat.max_eq_right (Nat.zero_le _)] at b1
          exact b1
        have hb2 : o2 ≤ row.length := by
          rw [Nat.max_eq_right hb1] at b2
          exact b2
        have hb3 : o3 ≤ row.length := by
          rw [Nat.max_eq_right hb2] at b3
          exact b3
        have hp2' : p2 = row.take axes.length ++
            (row.drop axes.length).take times.length := by
          rw [hp2, hp1, ho1]
          simp
        refine ⟨?_, ?_, ?_⟩
        · rw [dget_dset, if_pos rfl, hp2']
        · simp only [factRequired]
          omega
        · intro hwf
          obtain ⟨hnd, hfid⟩ := hwf
          have hnd' : ((axes.map (fun r => dget r "name") ++
              times.map (fun r => dget r "name")) ++
              measures.map (fun r => dget r "name")).Nodup := by
            simpa [List.map_append] using hnd
          obtain ⟨hat, hmn, hdisj2⟩ := List.nodup_append.mp hnd'
          obtain ⟨han, htn, hdisj1⟩ := List.nodup_append.mp hat
          refine ⟨?_, ?_, ?_⟩
          · intro i hi nm hname
            have hlater : ∀ a ∈ axes.drop (i + 1), dget a "name" ≠ some nm := by
              intro a ha hh
              exact nodup_map_later _ axes han i hi a ha (by rw [hname, hh])
            obtain ⟨v, hv, hm1⟩ := hx1 i hi nm hname hlater
            have hmem_nm : some nm ∈ axes.map (fun r => dget r "name") :=
              List.mem_map.mpr ⟨axes.get ⟨i, hi⟩, List.get_mem _ _ _, hname⟩
            have hnot_t : ∀ a ∈ times, dget a "name" ≠ some nm := by
              intro a ha hh
              exact hdisj1 hmem_nm (List.mem_map.mpr ⟨a, ha, hh⟩)
            have hnot_m : ∀ a ∈ measures, dget a "name" ≠ some nm := by
              intro a ha hh
              exact hdisj2 (List.mem_append_left _ hmem_nm)
                (List.mem_map.mpr ⟨a, ha, hh⟩)
            have hne_fid : PyVal.str "fact_id" ≠ nm := by
              intro hh
              exact hfid (axes.get ⟨i, hi⟩)
                (List.mem_append_left _ (List.mem_append_left _
                  (List.get_mem _ _ _)))
                (by rw [hname, ← hh])
            refine ⟨v, by simpa using hv, ?_⟩
            rw [dget_dset, if_neg hne_fid, hf3 nm hnot_m, hf2 nm hnot_t]
            exact hm1
          · intro j hj nm hname
            have hlater : ∀ a ∈ times.drop (j + 1), dget a "name" ≠ some nm := by
              intro a ha hh
              exact nodup_map_later _ times htn j hj a ha (by rw [hname, hh])
            obtain ⟨v, f', u', hv, hpd, hm2⟩ := hx2 j hj nm hname hlater
            have hmem_nm : some nm ∈ times.map (fun r => dget r "name") :=
              List.mem_map.mpr ⟨times.get ⟨j, hj⟩, List.get_mem _ _ _, hname⟩
            have hnot_m : ∀ a ∈ measures, dget a "name" ≠ some nm := by
              intro a ha hh
              exact hdisj2 (List.mem_append_right _ hmem_nm)
                (List.mem_map.mpr ⟨a, ha, hh⟩)
            have hne_fid : PyVal.str "fact_id" ≠ nm := by
              intro hh
              exact hfid (times.get ⟨j, hj⟩)
                (List.mem_append_left _ (List.mem_append_right _
                  (List.get_mem _ _ _)))
                (by rw [hname, ← hh])
            have hidx : o1 + j = axes.length + j := by omega
            rw [hidx] at hv
            refine ⟨v, f', u', hv, hpd, ?_⟩
            rw [dget_dset, if_neg hne_fid, hf3 nm hnot_m]
            exact hm2
          · intro k hk nm hname
            have hlater : ∀ a ∈ measures.drop (k + 1),
                dget a "name" ≠ some nm := by
              intro a ha hh
              exact nodup_map_later _ measures hmn k hk a ha (by rw [hname, hh])
            obtain ⟨v, value, q, l, e, dt0, hv, hq, hl, he, hdt, hval, hm3⟩ :=
              hx3 k hk nm hname hlater
            have hne_fid : PyVal.str "fact_id" ≠ nm := by
              intro hh
              exact hfid (measures.get ⟨k, hk⟩)
                (List.mem_append_right _ (List.get_mem _ _ _))
                (by rw [hname, ← hh])
            have i1 : o2 + 4 * k = axes.length + times.length + 4 * k := by omega
            have i2 : o2 + 4 * k + 1 = axes.length + times.length + 4 * k + 1 := by
              omega
            have i3 : o2 + 4 * k + 2 = axes.length + times.length + 4 * k + 2 := by
              omega
            have i4 : o2 + 4 * k + 3 = axes.length + times.length + 4 * k + 3 := by
              omega
            rw [i1] at hv
            rw [i2] at hq
            rw [i3] at hl
            rw [i4] at he
            refine ⟨v, value, q, l, e, dt0, hv, hq, hl, he, hdt, hval, ?_⟩
            rw [dget_dset, if_neg hne_fid]
            exact hm3

/-- Claim C5 (witness): the theorem at a one-axis cube: the identity is
the key of the single raw axis field, and the axis entry holds row
field 0. -/
theorem fact_mapping_schema_order_witness :
    ∃ v, ["x"].get? 0 = some v ∧
      dget [(PyVal.str "a", MapVal.plain (PyVal.str "x")),
            (PyVal.str "fact_id", MapVal.plain (PyVal.str "s:x"))]
        (PyVal.str "a") = some (MapVal.plain (PyVal.str v)) :=
  ((fact_mapping_schema_order [[("name", PyVal.str "a")]] [] [] ["x"]
      [(PyVal.str "a", MapVal.plain (PyVal.str "x")),
       (PyVal.str "fact_id", MapVal.plain (PyVal.str "s:x"))] rfl).2.2
    (by constructor
        · decide
        · decide)).1 0 (by decide) (PyVal.str "a") rfl

/-- Claim C6 (confirmed): the Section Splitter assigns every line of the
cube body, marker lines included, to the most recently seen section name
(the `None` bucket before any marker), and a name recurring in
non-contiguous blocks accumulates all of its lines under that one name in
original encounter order: the lines stored under `k` are exactly the
lines assigned to `k`, in order. -/
theorem cube_sections_accumulation (lines : List String)
    (m : List (Option String × List String))
    (h : sectionsFold none [] lines = .ok m) :
    ∀ k, dget m k =
      if linesFor none lines k = [] then none
      else some (linesFor none lines k) := by
  intro k
  have := sectionsFold_spec lines none [] m h k
  simpa [dget] using this

/-- Claim C6 (witness): the theorem on a body whose section `A` recurs in
two non-contiguous blocks: its lines accumulate in encounter order,
marker lines included. -/
theorem cube_sections_accumulation_witness :
    dget [((none : Option String), ["p"]),
          (some "A", ["K;A;x", "r", "K;A;z"]),
          (some "B", ["K;B;y"])] (some "A") =
      some ["K;A;x", "r", "K;A;z"] :=
  (cube_sections_accumulation ["p", "K;A;x", "r", "K;B;y", "K;A;z"]
      [((none : Option String), ["p"]),
       (some "A", ["K;A;x", "r", "K;A;z"]),
       (some "B", ["K;B;y"])] rfl (some "A")).trans (by decide)

end Regenesis
